import Mathlib

/-!
Verification of the landscape-client persistent message store
(`landscape/broker/store.py`) and of the sequence reconciliation
algorithm described in the specification.

The store keeps its records in numerically named shard directories,
each holding numerically named record files with an optional flag
suffix (`h` = held, `b` = broken).  All enumeration in the Python code
sorts directory listings numerically; we represent each directory as
the list of its entries already in numeric filename order, which every
store operation preserves (appends always use a strictly larger
number).  Files whose names end in `.tmp` are carried in the listing
(they matter for `os.listdir` emptiness checks) and marked with a
`tmp` field; every enumeration filters them out, mirroring
`_get_sorted_filenames`.

Record contents are bytes produced by `bpickle.dumps`; we model a
content as either the (deterministically serialized) message it
decodes to, or an undecodable blob (`bpickle.loads` raising
`ValueError`).  The message id returned by `add` is the file's inode
number (`os.stat(...).st_ino`), stable under the renames used for flag
changes; we model it with the `ino` field, allocated from a fresh
counter.  Since inodes are allocated in increasing order for the files
that `add` creates, `ino` also records insertion (ordinal) order.
-/

namespace LandscapeStore

/-- A decoded message: a mapping that always carries a `type` key, an
optional `api` key, and the remaining fields (kept opaque). -/
structure Msg where
  type : String
  api : Option String
  body : List (String × String)
deriving DecidableEq

/-- The bytes stored in a record file: either they decode (via
`bpickle.loads`) to a message, or decoding raises `ValueError`. -/
inductive Content where
  | good (m : Msg)
  | corrupt
deriving DecidableEq

/-- A record file inside a shard directory: numeric filename part
`seq`, flag-suffix characters `flags`, whether the name ends in
`.tmp`, the stored bytes, and the inode number. -/
structure MFile where
  seq : Nat
  flags : List Char
  tmp : Bool
  content : Content
  ino : Nat
deriving DecidableEq

/-- A shard directory: its numeric name and its entries, listed in
numeric filename order. -/
structure Shard where
  name : Nat
  files : List MFile
deriving DecidableEq

/-- The whole message store: the shard directories (in numeric order)
plus the metadata held in the `Persist` ("message-store" root), the
schema registry, the shard capacity (`directory_size`) and the fresh
inode supply. -/
structure Store where
  shards : List Shard
  accepted_types : List String
  sequence : Int
  server_sequence : Int
  pending_offset : Nat
  server_uuid : Option String
  exchange_token : Option String
  schemas : List (String × (Msg → Option Msg))
  dirSize : Nat
  nextIno : Nat

/-- The `api` value the store stamps on messages lacking one
(`MessageStore.api = SERVER_API`). -/
def SERVER_API : String := "3.2"

/-- Flag strings are written `"".join(sorted(set(flags)))`
(`_set_flags`): duplicates removed, characters sorted. -/
def mkFlags (l : List Char) : List Char :=
  l.dedup.insertionSort (· ≤ ·)

/-- Membership of a flag character in a file's flag suffix. -/
def hasFlag (f : MFile) (c : Char) : Bool :=
  f.flags.contains c

/-- A record is unflagged when its name carries neither `h` nor `b`. -/
def unflagged (f : MFile) : Bool :=
  !(hasFlag f 'h') && !(hasFlag f 'b')

/-- The test applied by `_walk_messages`: yield the file unless the
exclusion set intersects its flags (an empty exclusion set excludes
nothing). -/
def excludeOk (excl : List Char) (f : MFile) : Bool :=
  excl.all fun c => !(hasFlag f c)

/-- Whether a file is visible to `_get_sorted_filenames` and passes
the exclusion filter of `_walk_messages`. -/
def walkKeep (excl : List Char) (f : MFile) : Bool :=
  !f.tmp && excludeOk excl f

/-- `_walk_messages(exclude)`: every shard in numeric order, every
non-`.tmp` file in numeric order, excluding flagged files as asked. -/
def walkFiles (shards : List Shard) (excl : List Char) : List MFile :=
  shards.flatMap fun sh => sh.files.filter (walkKeep excl)

/-- All resident records (non-`.tmp` files), i.e.
`_walk_messages(exclude=None)`. -/
def walkAll (s : Store) : List MFile :=
  walkFiles s.shards []

/-- The unflagged walk, i.e. `_walk_messages(exclude=HELD+BROKEN)`. -/
def walkHB (s : Store) : List MFile :=
  walkFiles s.shards ['h', 'b']

/-- `_walk_pending_messages`: the unflagged walk with the first
`pending_offset` entries skipped. -/
def walkPending (s : Store) : List MFile :=
  (walkHB s).drop s.pending_offset

/-- `count_pending_messages`. -/
def countPendingMessages (s : Store) : Nat :=
  (walkPending s).length

/-- The raw concatenation of every shard's listing, `.tmp` entries
included; enumeration lemmas are phrased through it. -/
def flattenShards (shards : List Shard) : List MFile :=
  shards.flatMap Shard.files

/-- The predicate selecting the files `_walk_pending_messages` counts:
resident and unflagged. -/
def pendKeep (f : MFile) : Bool :=
  !f.tmp && unflagged f

/-- The pending-eligible files of a raw listing. -/
def pendFilter (fs : List MFile) : List MFile :=
  fs.filter pendKeep

/-- Where `_get_next_message_filename` will place the next record:
target shard name, target numeric filename, and whether a new shard
directory has to be created first. -/
structure Target where
  dir : Nat
  seq : Nat
  newDir : Bool
deriving DecidableEq

/-- `_get_next_message_filename`: take the newest (numerically last)
shard; if there is none, create shard `0` and use filename `0`; if its
(non-`.tmp`) listing is empty use filename `0`; if it holds fewer than
`directory_size` entries use the last numeric filename plus one;
otherwise create the next shard and use filename `0`. -/
def nextTarget (shards : List Shard) (dsize : Nat) : Target :=
  match shards.getLast? with
  | none => ⟨0, 0, true⟩
  | some sh =>
    let fs := sh.files.filter fun f => !f.tmp
    match fs.getLast? with
    | none => ⟨sh.name, 0, false⟩
    | some last =>
      if fs.length < dsize then ⟨sh.name, last.seq + 1, false⟩
      else ⟨sh.name + 1, 0, true⟩

/-- Modify the last element of a list, if any. -/
def modifyLast (g : Shard → Shard) : List Shard → List Shard
  | [] => []
  | [sh] => [g sh]
  | sh :: rest => sh :: modifyLast g rest

/-- Place a freshly built file (given its assigned numeric filename)
at the target computed by `nextTarget`: append it to the newest shard,
or to a newly created shard directory. -/
def insertNew (shards : List Shard) (t : Target) (mk : Nat → MFile) :
    List Shard :=
  if t.newDir then shards ++ [⟨t.dir, [mk t.seq]⟩]
  else modifyLast (fun sh => ⟨sh.name, sh.files ++ [mk t.seq]⟩) shards

/-- Look up the schema registered for a message type
(`self._schemas[message["type"]]`; absent type raises). -/
def lookupSchema (s : Store) (ty : String) : Option (Msg → Option Msg) :=
  match s.schemas.find? (fun p => p.fst = ty) with
  | some p => some p.snd
  | none => none

/-- `add(message)`: coerce through the schema registry (an unknown
type or invalid fields fail before anything is written), default the
`api` field, write the record with a temp-file-then-rename sequence
(modelled by its final effect: one new visible file), flag it `h` at
once when its type is not accepted, and return the new file's inode.
On failure the store is untouched, since the failure happens before
any write. -/
def addMessage (s : Store) (m : Msg) : Option Nat × Store :=
  match lookupSchema s m.type with
  | none => (none, s)
  | some sch =>
    match sch m with
    | none => (none, s)
    | some m1 =>
      let m2 := if m1.api.isNone then ⟨m1.type, some SERVER_API, m1.body⟩
                else m1
      let fl : List Char :=
        if s.accepted_types.contains m2.type then [] else ['h']
      let t := nextTarget s.shards s.dirSize
      let shards' := insertNew s.shards t fun sq =>
        ⟨sq, fl, false, Content.good m2, s.nextIno⟩
      (some s.nextIno,
        { s with shards := shards', nextIno := s.nextIno + 1 })

/-- The store resulting from an `add` call (successful or not). -/
def addStore (s : Store) (m : Msg) : Store :=
  (addMessage s m).snd

/-- The store left behind when the process dies between writing
`filename + ".tmp"` and the `os.rename` making it visible: the target
directory exists (possibly freshly created) and holds one extra
`.tmp` entry with whatever half-written bytes made it to disk. -/
def addCrash (s : Store) (c : Content) : Store :=
  let t := nextTarget s.shards s.dirSize
  { s with shards := insertNew s.shards t fun sq =>
      ⟨sq, [], true, c, s.nextIno⟩ }

/-- What `get_pending_messages` does to one pending record: decode
failure flags it `b` in place (`_add_flags(filename, BROKEN)`), an
unaccepted type flags it `h` in place, and otherwise the decoded
message is collected. -/
def gpProcess (acc : List String) (f : MFile) : Option Msg × MFile :=
  match f.content with
  | Content.corrupt => (none, { f with flags := mkFlags (f.flags ++ ['b']) })
  | Content.good m =>
    if acc.contains m.type then (some m, f)
    else (none, { f with flags := mkFlags (f.flags ++ ['h']) })

/-- The message, if any, that `get_pending_messages` collects from a
pending record. -/
def gpSelect (acc : List String) (f : MFile) : Option Msg :=
  match f.content with
  | Content.corrupt => none
  | Content.good m => if acc.contains m.type then some m else none

/-- The loop's break test: `max is not None and len(messages) >= max`. -/
def limReached (lim : Option Nat) (got : Nat) : Bool :=
  match lim with
  | none => false
  | some n => n ≤ got

/-- The mutable state threaded through the `get_pending_messages`
loop: how many of the leading unflagged records remain to be skipped
(`pending_offset` bookkeeping of `_walk_pending_messages`), how many
messages have been collected, and the collected messages. -/
structure GpSt where
  skip : Nat
  got : Nat
  msgs : List Msg
deriving DecidableEq

/-- One directory's worth of the `get_pending_messages` loop: `.tmp`
and flagged entries are not yielded by the walk; the first `skip`
unflagged entries are before `pending_offset`; once the limit is
reached the iteration stops and later files stay untouched; every
other pending record is processed by `gpProcess`. -/
def gpFiles (acc : List String) (lim : Option Nat) :
    GpSt → List MFile → GpSt × List MFile
  | st, [] => (st, [])
  | st, f :: fs =>
    if !pendKeep f then
      let r := gpFiles acc lim st fs
      (r.fst, f :: r.snd)
    else if st.skip ≠ 0 then
      let r := gpFiles acc lim ⟨st.skip - 1, st.got, st.msgs⟩ fs
      (r.fst, f :: r.snd)
    else if limReached lim st.got then (st, f :: fs)
    else
      let p := gpProcess acc f
      let st' : GpSt :=
        match p.fst with
        | some m => ⟨st.skip, st.got + 1, st.msgs ++ [m]⟩
        | none => st
      let r := gpFiles acc lim st' fs
      (r.fst, p.snd :: r.snd)

/-- The `get_pending_messages` loop over all shard directories. -/
def gpShards (acc : List String) (lim : Option Nat) :
    GpSt → List Shard → GpSt × List Shard
  | st, [] => (st, [])
  | st, sh :: rest =>
    let r := gpFiles acc lim st sh.files
    let r2 := gpShards acc lim r.fst rest
    (r2.fst, ⟨sh.name, r.snd⟩ :: r2.snd)

/-- `get_pending_messages(max)`: walk the pending records, flagging
broken or no-longer-accepted ones in place and collecting up to `max`
accepted messages. -/
def getPendingMessages (s : Store) (lim : Option Nat) :
    List Msg × Store :=
  let r := gpShards s.accepted_types lim ⟨s.pending_offset, 0, []⟩ s.shards
  (r.fst.msgs, { s with shards := r.snd })

/-- The messages returned by `get_pending_messages`. -/
def gpMsgs (s : Store) (lim : Option Nat) : List Msg :=
  (getPendingMessages s lim).fst

/-- The store after `get_pending_messages` (lazy reclassification). -/
def gpStore (s : Store) (lim : Option Nat) : Store :=
  (getPendingMessages s lim).snd

/-- The `is_pending` scan: walk with BROKEN excluded, counting
unflagged files in `i`; a file matches when it is held or at/after the
pending offset and its inode is the requested id. -/
def isPendingGo (P mid : Nat) : Nat → List MFile → Bool
  | _, [] => false
  | i, f :: fs =>
    if (hasFlag f 'h' || P ≤ i) && f.ino = mid then true
    else isPendingGo P mid
      (if !(hasFlag f 'b') && !(hasFlag f 'h') then i + 1 else i) fs

/-- `is_pending(message_id)`. -/
def isPending (s : Store) (mid : Nat) : Bool :=
  isPendingGo s.pending_offset mid 0 (walkFiles s.shards ['b'])

/-- One directory's worth of `delete_old_messages`: unlink removable
(unflagged, non-`.tmp`) files while budget remains, returning the
surviving entries and the leftover budget. -/
def delShardFiles : Nat → List MFile → List MFile × Nat
  | b, [] => ([], b)
  | b, f :: fs =>
    if b ≠ 0 && pendKeep f then delShardFiles (b - 1) fs
    else
      let r := delShardFiles b fs
      (f :: r.fst, r.snd)

/-- `delete_old_messages` over the shard directories: unlink the first
`pending_offset` unflagged records in walk order, and `os.rmdir` a
directory that an unlink has just emptied (`os.listdir` sees `.tmp`
entries, so a directory holding one survives; a directory that was
already empty is never touched). -/
def delShards : Nat → List Shard → List Shard
  | _, [] => []
  | b, sh :: rest =>
    let r := delShardFiles b sh.files
    let rest' := delShards r.snd rest
    if r.fst.isEmpty && !sh.files.isEmpty then rest'
    else ⟨sh.name, r.fst⟩ :: rest'

/-- `delete_old_messages()`: note that `pending_offset` itself is left
unchanged — the caller is expected to account for the deletion. -/
def deleteOldMessages (s : Store) : Store :=
  { s with shards := delShards s.pending_offset s.shards }

/-- `delete_all_messages()`: reset `pending_offset` and unlink every
file yielded by `_walk_messages()` (every non-`.tmp` entry; shard
directories and stray `.tmp` files stay behind). -/
def deleteAllMessages (s : Store) : Store :=
  { s with pending_offset := 0,
           shards := s.shards.map fun sh =>
             ⟨sh.name, sh.files.filter MFile.tmp⟩ }

/-- `set_pending_offset(val)`. -/
def setPendingOffset (s : Store) (v : Nat) : Store :=
  { s with pending_offset := v }

/-- A snapshot entry of `_reprocess_holding`'s walk: the shard
directory name together with the listed file.  The Python code
identifies a file by its path, i.e. by directory name and numeric
filename; flag renames and re-insertions keep every pair unique, so
`(dir, seq)` addresses a file. -/
structure Entry where
  dir : Nat
  file : MFile
deriving DecidableEq

/-- The snapshot `_reprocess_holding` iterates over: every non-`.tmp`
file of every shard, in walk order, paired with its directory name. -/
def snapshotEntries (shards : List Shard) : List Entry :=
  shards.flatMap fun sh =>
    (sh.files.filter fun f => !f.tmp).map fun f => ⟨sh.name, f⟩

/-- Rewrite the first list element satisfying the predicate. -/
def modifyFirstP (p : MFile → Bool) (g : MFile → MFile) :
    List MFile → List MFile
  | [] => []
  | f :: fs => if p f then g f :: fs else f :: modifyFirstP p g fs

/-- Rewrite, inside the directory named `d`, the first non-`.tmp`
file whose numeric name is `sq` (the file a path identifies). -/
def modifyFileAt (shards : List Shard) (d sq : Nat) (g : MFile → MFile) :
    List Shard :=
  shards.map fun sh =>
    if sh.name = d then
      ⟨sh.name, modifyFirstP (fun f => !f.tmp && f.seq = sq) g sh.files⟩
    else sh

/-- Remove, inside the directory named `d`, the first non-`.tmp` file
whose numeric name is `sq` (the `os.rename` away of a held file). -/
def removeFileAt (shards : List Shard) (d sq : Nat) : List Shard :=
  shards.map fun sh =>
    if sh.name = d then ⟨sh.name, sh.files.eraseP fun f => !f.tmp && f.seq = sq⟩
    else sh

/-- Re-insert an unheld file at the current write position
(`_get_next_message_filename` plus `os.rename`): the file keeps its
contents and inode, gets the next numeric filename, and lands at the
end of the newest shard (or of a freshly created one). -/
def appendFile (shards : List Shard) (dsize : Nat) (f : MFile) :
    List Shard :=
  insertNew shards (nextTarget shards dsize) fun sq => { f with seq := sq }

/-- The `_reprocess_holding` loop over the snapshot.  Decode failures
are logged and only adjust the running offset (no flag is written).
A held record whose type is accepted again is renamed to the current
write position with `h` removed from its flags.  An unheld record
whose type is no longer accepted is flagged `h` in place once the
running offset has reached `pending_offset`; the offset advances for
every record not flagged `h`.  Returns the final shards and offset. -/
def rpGo (acc : List String) (P dsize : Nat) :
    List Entry → List Shard → Nat → List Shard × Nat
  | [], sh, off => (sh, off)
  | e :: rest, sh, off =>
    match e.file.content with
    | Content.corrupt =>
      rpGo acc P dsize rest sh
        (if hasFlag e.file 'h' then off else off + 1)
    | Content.good m =>
      if hasFlag e.file 'h' then
        if acc.contains m.type then
          let sh1 := removeFileAt sh e.dir e.file.seq
          let sh2 := appendFile sh1 dsize
            { e.file with flags := mkFlags (e.file.flags.filter (· ≠ 'h')) }
          rpGo acc P dsize rest sh2 off
        else rpGo acc P dsize rest sh off
      else
        if !acc.contains m.type && P ≤ off then
          rpGo acc P dsize rest
            (modifyFileAt sh e.dir e.file.seq fun f =>
              { f with flags := mkFlags (f.flags ++ ['h']) })
            (off + 1)
        else rpGo acc P dsize rest sh (off + 1)

/-- `_reprocess_holding()`. -/
def reprocessHolding (s : Store) : Store :=
  { s with shards :=
      (rpGo s.accepted_types s.pending_offset s.dirSize
        (snapshotEntries s.shards) s.shards 0).fst }

/-- `set_accepted_types(types)`: store `sorted(set(types))` and run
`_reprocess_holding`. -/
def setAcceptedTypes (s : Store) (types : List String) : Store :=
  reprocessHolding
    { s with accepted_types := types.dedup.insertionSort (· ≤ ·) }

/-- Truncation by an optional limit (`max=None` keeps everything). -/
def optTake (lim : Option Nat) (l : List α) : List α :=
  match lim with
  | none => l
  | some n => l.take n

/-- The remaining budget of the limit after `got` collected messages. -/
def limRem (lim : Option Nat) (got : Nat) : Option Nat :=
  match lim with
  | none => none
  | some n => some (n - got)

/-- The file transformation a full (unlimited) `get_pending_messages`
call applies to one directory listing: the first `skip` unflagged
records are passed over, every later unflagged record goes through
`gpProcess`, and every other entry is untouched. -/
def gpMark (acc : List String) : Nat → List MFile → List MFile
  | _, [] => []
  | skip, f :: fs =>
    if !pendKeep f then f :: gpMark acc skip fs
    else if skip ≠ 0 then f :: gpMark acc (skip - 1) fs
    else (gpProcess acc f).snd :: gpMark acc 0 fs

/-- Replace every record's stored bytes (keeping names, flags and
inodes); used to state that an operation never reads file contents. -/
def mapContentStore (g : Content → Content) (s : Store) : Store :=
  { s with shards := s.shards.map fun sh =>
      ⟨sh.name, sh.files.map fun f => { f with content := g f.content }⟩ }

/-- The specification's store invariant:
`0 ≤ pending_offset ≤ (count of unflagged records currently resident)`
(the lower bound is inherent in the `Nat` representation). -/
def storeInv (s : Store) : Prop :=
  s.pending_offset ≤ (walkHB s).length

instance decidableStoreInv (s : Store) : Decidable (storeInv s) :=
  inferInstanceAs (Decidable (s.pending_offset ≤ (walkHB s).length))

/-- Store states produced from an empty message directory by a
sequence of `add` calls (successful or rejected). -/
inductive AddReachable : Store → Prop
  | base (s : Store) : s.shards = [] → AddReachable s
  | step (s : Store) (m : Msg) : AddReachable s → AddReachable (addStore s m)

/-- A message of type `t`, used by the concrete test stores. -/
def msgA : Msg := ⟨"t", some "3.2", []⟩

/-- A second message of type `t` with a distinguishing field. -/
def msgB : Msg := ⟨"t", some "3.2", [("k", "v")]⟩

/-- Shared metadata of the concrete test stores: type `t` accepted, an
identity schema for `t`, empty message directory. -/
def baseStore : Store :=
  { shards := [], accepted_types := ["t"], sequence := 0,
    server_sequence := 0, pending_offset := 0, server_uuid := none,
    exchange_token := none, schemas := [("t", fun m => some m)],
    dirSize := 1000, nextIno := 0 }

/-- Two unflagged accepted records with `pending_offset = 1`
(record 0 already delivered, record 1 still pending). -/
def storeTwo : Store :=
  { baseStore with
    shards := [⟨0, [⟨0, [], false, Content.good msgA, 10⟩,
                    ⟨1, [], false, Content.good msgB, 11⟩]⟩],
    pending_offset := 1, nextIno := 12 }

/-- One unflagged record with `pending_offset = 1` (the single record
already delivered). -/
def storeOne : Store :=
  { baseStore with
    shards := [⟨0, [⟨0, [], false, Content.good msgA, 10⟩]⟩],
    pending_offset := 1, nextIno := 11 }

/-- A broken-flagged corrupt record followed by an unflagged record of
type `t`, with `pending_offset = 1`. -/
def storeMixed : Store :=
  { baseStore with
    shards := [⟨0, [⟨0, ['b'], false, Content.corrupt, 20⟩,
                    ⟨1, [], false, Content.good msgA, 21⟩]⟩],
    pending_offset := 1, nextIno := 22 }

/-- A single unflagged corrupt record, pending from offset 0. -/
def storeCorrupt : Store :=
  { baseStore with
    shards := [⟨0, [⟨0, [], false, Content.corrupt, 30⟩]⟩],
    nextIno := 31 }

/-- A message whose type is unknown to the schema registry of
`baseStore`. -/
def msgU : Msg := ⟨"u", none, []⟩

/-- The records whose decoded messages `get_pending_messages` returns
(before limit truncation): the pending-walk records that decode and
whose type is accepted. -/
def selRecs (s : Store) : List MFile :=
  (walkPending s).filter fun f => (gpSelect s.accepted_types f).isSome

end LandscapeStore

namespace Reconciler

/-- Modelled from the spec: the repository references the pure
reconciliation function (`landscape.lib.message.got_next_expected`)
whose source file is not among the provided sources; this definition
follows the specification's words in section 4.2.  With
`delta = peer_next_expected - local_sequence`: on a normal advance
(`delta ≥ 0`) the new sequence is `peer_next_expected` and the new
pending offset is `min(local_pending_offset + delta, buffered_count)`;
on a regression (`delta < 0`) the new sequence is `peer_next_expected`
and the new pending offset is `max(local_pending_offset + delta, 0)`. -/
def reconcile (local_sequence local_pending_offset buffered_count
    peer_next_expected : Int) : Int × Int :=
  let delta := peer_next_expected - local_sequence
  if 0 ≤ delta then
    (peer_next_expected, min (local_pending_offset + delta) buffered_count)
  else
    (peer_next_expected, max (local_pending_offset + delta) 0)

end Reconciler

namespace LandscapeStore

theorem walkFiles_eq_filter_flatten (shards : List Shard) (excl : List Char) :
    walkFiles shards excl = (flattenShards shards).filter (walkKeep excl) := by
  induction shards with
  | nil => rfl
  | cons sh rest ih =>
    simp [walkFiles, flattenShards, List.filter_append] at *
    exact ih

theorem walkKeep_hb (f : MFile) : walkKeep ['h', 'b'] f = pendKeep f := by
  simp [walkKeep, pendKeep, excludeOk, unflagged, List.all_cons, Bool.and_assoc]

theorem walkKeep_nil (f : MFile) : walkKeep [] f = !f.tmp := by
  simp [walkKeep, excludeOk]

theorem walkHB_eq_pendFilter (s : Store) :
    walkHB s = pendFilter (flattenShards s.shards) := by
  rw [walkHB, walkFiles_eq_filter_flatten, pendFilter]
  exact List.filter_congr fun f _ => walkKeep_hb f

theorem walkAll_eq_filter (s : Store) :
    walkAll s = (flattenShards s.shards).filter (fun f => !f.tmp) := by
  rw [walkAll, walkFiles_eq_filter_flatten]
  exact List.filter_congr fun f _ => walkKeep_nil f

theorem flattenShards_append (a b : List Shard) :
    flattenShards (a ++ b) = flattenShards a ++ flattenShards b := by
  simp [flattenShards]

theorem pendFilter_append (a b : List MFile) :
    pendFilter (a ++ b) = pendFilter a ++ pendFilter b := by
  simp [pendFilter]

theorem optTake_limRem_cons (lim : Option Nat) (got : Nat) (m : Msg)
    (l : List Msg) (h : limReached lim got = false) :
    optTake (limRem lim got) (m :: l) =
      m :: optTake (limRem lim (got + 1)) l := by
  cases lim with
  | none => rfl
  | some n =>
    simp [limReached] at h
    simp [optTake, limRem]
    have : n - got = (n - (got + 1)) + 1 := by omega
    rw [this, List.take_succ_cons]

theorem optTake_limRem_nil (lim : Option Nat) (got : Nat) (l : List Msg)
    (h : limReached lim got = true) :
    optTake (limRem lim got) l = [] := by
  cases lim with
  | none => simp [limReached] at h
  | some n =>
    simp [limReached] at h
    simp [optTake, limRem, Nat.sub_eq_zero_of_le h]

theorem optTake_nil (lim : Option Nat) : optTake lim ([] : List Msg) = [] := by
  cases lim <;> simp [optTake]

theorem gpProcess_fst (acc : List String) (f : MFile) :
    (gpProcess acc f).fst = gpSelect acc f := by
  cases h : f.content <;> simp [gpProcess, gpSelect, h]
  split <;> simp

/-- The loop state produced by one directory of `get_pending_messages`:
the skip budget shrinks by the number of pending-eligible files, and
the collected messages grow by the accepted decodable ones past the
skip point, truncated by the remaining limit budget. -/
theorem gpFiles_fst (acc : List String) (lim : Option Nat) :
    ∀ (fs : List MFile) (st : GpSt),
    (gpFiles acc lim st fs).fst =
      ⟨st.skip - (pendFilter fs).length,
       st.got + (optTake (limRem lim st.got)
         (List.filterMap (gpSelect acc) ((pendFilter fs).drop st.skip))).length,
       st.msgs ++ optTake (limRem lim st.got)
         (List.filterMap (gpSelect acc) ((pendFilter fs).drop st.skip))⟩ := by
  intro fs
  induction fs with
  | nil => intro st; simp [gpFiles, pendFilter, optTake_nil]
  | cons f fs ih =>
    intro st
    by_cases hp : pendKeep f
    · have hpf : pendFilter (f :: fs) = f :: pendFilter fs := by
        simp [pendFilter, hp]
      by_cases hs : st.skip = 0
      · by_cases hl : limReached lim st.got
        · simp only [gpFiles, hp, hs, Bool.not_true, Bool.false_eq_true,
            if_false, ne_eq, not_true_eq_false, if_true, hl]
          simp [hpf, hs, optTake_limRem_nil lim st.got _ hl]
          cases st
          simp_all
        · have hl' : limReached lim st.got = false := by
            simpa using hl
          simp only [gpFiles, hp, hs, Bool.not_true, Bool.false_eq_true,
            if_false, ne_eq, not_true_eq_false, if_true, hl',
            Bool.false_eq_true, if_false]
          cases hsel : gpSelect acc f with
          | some m =>
            have hfst : (gpProcess acc f).fst = some m := by
              rw [gpProcess_fst, hsel]
            simp only [hfst]
            rw [ih]
            simp [hpf, hs, hsel, optTake_limRem_cons lim st.got m _ hl']
            omega
          | none =>
            have hfst : (gpProcess acc f).fst = none := by
              rw [gpProcess_fst, hsel]
            simp only [hfst]
            rw [ih]
            simp [hpf, hs, hsel]
      · obtain ⟨k, hk⟩ := Nat.exists_eq_succ_of_ne_zero hs
        simp only [gpFiles, hp, hs, Bool.not_true, Bool.false_eq_true,
          if_false, ne_eq, not_false_eq_true, if_true]
        rw [ih]
        simp only [GpSt.mk.injEq, hpf, hk, List.length_cons,
          List.drop_succ_cons]
        refine ⟨by omega, rfl, rfl⟩
    · have hp' : pendKeep f = false := by simpa using hp
      have hpf : pendFilter (f :: fs) = pendFilter fs := by
        simp [pendFilter, hp']
      simp only [gpFiles, hp', Bool.not_false, if_true]
      rw [ih]
      simp [hpf]

theorem optTake_limRem_append (lim : Option Nat) (got : Nat)
    (a b : List Msg) :
    optTake (limRem lim got) (a ++ b) =
      optTake (limRem lim got) a ++
        optTake (limRem lim (got + (optTake (limRem lim got) a).length)) b := by
  cases lim with
  | none => rfl
  | some n =>
    simp only [optTake, limRem, List.take_append_eq_append_take]
    congr 1
    congr 1
    have : (List.take (n - got) a).length = min (n - got) a.length := by
      simp
    omega

/-- The loop state after `get_pending_messages` has crossed every
shard directory. -/
theorem gpShards_fst (acc : List String) (lim : Option Nat) :
    ∀ (shards : List Shard) (st : GpSt),
    (gpShards acc lim st shards).fst =
      ⟨st.skip - (pendFilter (flattenShards shards)).length,
       st.got + (optTake (limRem lim st.got)
         (List.filterMap (gpSelect acc)
           ((pendFilter (flattenShards shards)).drop st.skip))).length,
       st.msgs ++ optTake (limRem lim st.got)
         (List.filterMap (gpSelect acc)
           ((pendFilter (flattenShards shards)).drop st.skip))⟩ := by
  intro shards
  induction shards with
  | nil => intro st; simp [gpShards, flattenShards, pendFilter, optTake_nil]
  | cons sh rest ih =>
    intro st
    have hfl : flattenShards (sh :: rest) = sh.files ++ flattenShards rest := by
      simp [flattenShards]
    simp only [gpShards]
    rw [gpFiles_fst, ih]
    simp only [hfl, pendFilter_append, List.drop_append_eq_append_drop,
      List.filterMap_append, optTake_limRem_append, List.length_append,
      GpSt.mk.injEq, List.append_assoc]
    refine ⟨by omega, by omega, trivial⟩

/-- The messages `get_pending_messages(max)` returns: the accepted,
decodable records of the pending walk, truncated at the limit
(flagged records consume no slots). -/
theorem gpMsgs_eq (s : Store) (lim : Option Nat) :
    gpMsgs s lim =
      optTake lim (List.filterMap (gpSelect s.accepted_types)
        (walkPending s)) := by
  have h := gpShards_fst s.accepted_types lim s.shards
    ⟨s.pending_offset, 0, []⟩
  simp only [gpMsgs, getPendingMessages, h]
  have : limRem lim 0 = lim := by
    cases lim <;> simp [limRem]
  rw [this]
  simp [walkPending, walkHB_eq_pendFilter]

theorem pendFilter_cons_pos (f : MFile) (fs : List MFile)
    (h : pendKeep f = true) :
    pendFilter (f :: fs) = f :: pendFilter fs := by
  simp [pendFilter, h]

theorem pendFilter_cons_neg (f : MFile) (fs : List MFile)
    (h : pendKeep f = false) :
    pendFilter (f :: fs) = pendFilter fs := by
  simp [pendFilter, h]

theorem delShardFiles_snd (b : Nat) (fs : List MFile) :
    (delShardFiles b fs).snd = b - (pendFilter fs).length := by
  induction fs generalizing b with
  | nil => simp [delShardFiles, pendFilter]
  | cons f fs ih =>
    simp only [delShardFiles]
    by_cases hc : (decide (b ≠ 0) && pendKeep f) = true
    · rw [if_pos hc, ih]
      simp only [Bool.and_eq_true, decide_eq_true_eq, ne_eq] at hc
      rw [pendFilter_cons_pos f fs hc.2, List.length_cons]
      omega
    · rw [if_neg (by simpa using hc)]
      simp only
      rw [ih]
      by_cases hp : pendKeep f
      · have hb : b = 0 := by
          by_contra h
          exact hc (by simp [h, hp])
        rw [pendFilter_cons_pos f fs hp]
        simp [hb]
      · rw [pendFilter_cons_neg f fs (by simpa using hp)]

theorem delShardFiles_pendFilter (b : Nat) (fs : List MFile) :
    pendFilter (delShardFiles b fs).fst = (pendFilter fs).drop b := by
  induction fs generalizing b with
  | nil => simp [delShardFiles, pendFilter]
  | cons f fs ih =>
    simp only [delShardFiles]
    by_cases hc : (decide (b ≠ 0) && pendKeep f) = true
    · rw [if_pos hc, ih]
      have hc' := hc
      simp only [Bool.and_eq_true, decide_eq_true_eq, ne_eq] at hc'
      rw [pendFilter_cons_pos f fs hc'.2]
      obtain ⟨k, hk⟩ := Nat.exists_eq_succ_of_ne_zero hc'.1
      rw [hk]
      simp
    · rw [if_neg (by simpa using hc)]
      simp only
      by_cases hp : pendKeep f
      · have hb : b = 0 := by
          by_contra h
          exact hc (by simp [h, hp])
        rw [pendFilter_cons_pos _ _ hp, pendFilter_cons_pos _ _ hp, ih, hb]
        simp
      · rw [pendFilter_cons_neg _ _ (by simpa using hp),
          pendFilter_cons_neg _ _ (by simpa using hp), ih]

theorem delShardFiles_filter_preserved (b : Nat) (fs : List MFile)
    (p : MFile → Bool) (hp : ∀ f, p f = true → pendKeep f = false) :
    (delShardFiles b fs).fst.filter p = fs.filter p := by
  induction fs generalizing b with
  | nil => simp [delShardFiles]
  | cons f fs ih =>
    simp only [delShardFiles]
    by_cases hc : (decide (b ≠ 0) && pendKeep f) = true
    · rw [if_pos hc, ih]
      have hc' := hc
      simp only [Bool.and_eq_true, decide_eq_true_eq, ne_eq] at hc'
      have hpf : p f = false := by
        cases h : p f
        · rfl
        · rw [hp f h] at hc'
          simp at hc'
      rw [List.filter_cons, hpf]
      simp
    · rw [if_neg (by simpa using hc)]
      simp only
      rw [List.filter_cons, List.filter_cons]
      cases h : p f <;> simp [ih]

theorem delShardFiles_append (b : Nat) (xs ys : List MFile) :
    delShardFiles b (xs ++ ys) =
      ((delShardFiles b xs).fst ++
         (delShardFiles (delShardFiles b xs).snd ys).fst,
       (delShardFiles (delShardFiles b xs).snd ys).snd) := by
  induction xs generalizing b with
  | nil => simp [delShardFiles]
  | cons f fs ih =>
    simp only [List.cons_append, delShardFiles]
    by_cases hc : (decide (b ≠ 0) && pendKeep f) = true
    · rw [if_pos hc, if_pos hc]
      exact ih (b - 1)
    · rw [if_neg (by simpa using hc), if_neg (by simpa using hc)]
      simp only
      have hih := ih b
      simp only [List.append_eq] at hih ⊢
      rw [hih]
      simp

theorem delShards_flatten (b : Nat) (shards : List Shard) :
    flattenShards (delShards b shards) =
      (delShardFiles b (flattenShards shards)).fst := by
  induction shards generalizing b with
  | nil => simp [delShards, flattenShards, delShardFiles]
  | cons sh rest ih =>
    have hfl : flattenShards (sh :: rest) = sh.files ++ flattenShards rest := by
      simp [flattenShards]
    rw [hfl, delShardFiles_append]
    simp only [delShards]
    by_cases hemp : (delShardFiles b sh.files).fst.isEmpty &&
        !sh.files.isEmpty
    · simp only [hemp, if_true]
      rw [ih]
      have : (delShardFiles b sh.files).fst = [] := by
        have := hemp
        simp only [Bool.and_eq_true, List.isEmpty_iff] at this
        exact this.1
      simp [this]
    · have hemp' : ((delShardFiles b sh.files).fst.isEmpty &&
          !sh.files.isEmpty) = false := by simpa using hemp
      simp only [hemp', Bool.false_eq_true, if_false]
      have : flattenShards (⟨sh.name, (delShardFiles b sh.files).fst⟩ ::
          delShards (delShardFiles b sh.files).snd rest) =
          (delShardFiles b sh.files).fst ++
            flattenShards (delShards (delShardFiles b sh.files).snd rest) := by
        simp [flattenShards]
      rw [this, ih]

/-- `delete_old_messages` removes exactly the first `pending_offset`
entries of the unflagged walk: the survivors are the rest, verbatim. -/
theorem deleteOld_walkHB (s : Store) :
    walkHB (deleteOldMessages s) = (walkHB s).drop s.pending_offset := by
  rw [walkHB_eq_pendFilter, walkHB_eq_pendFilter]
  simp only [deleteOldMessages]
  rw [delShards_flatten, delShardFiles_pendFilter]

/-- `delete_old_messages` never unlinks a HELD or BROKEN record. -/
theorem deleteOld_flagged_preserved (s : Store) :
    (walkAll (deleteOldMessages s)).filter (fun f => !unflagged f) =
      (walkAll s).filter (fun f => !unflagged f) := by
  rw [walkAll_eq_filter, walkAll_eq_filter]
  simp only [deleteOldMessages]
  rw [delShards_flatten]
  rw [List.filter_filter, List.filter_filter]
  exact delShardFiles_filter_preserved _ _ _
    (by intro f h; simp at h; simp [pendKeep, h.1, h.2])

theorem setPendingOffset_shards (s : Store) (v : Nat) :
    (setPendingOffset s v).shards = s.shards := rfl

theorem deleteOld_shape (s : Store) :
    deleteOldMessages s =
      { s with shards := delShards s.pending_offset s.shards } := rfl

/-- After `delete_old_messages` and the caller's offset reset, an
unlimited `get_pending_messages` returns the very messages it would
have returned before the deletion. -/
theorem deleteOld_reset_msgs (s : Store) :
    gpMsgs (setPendingOffset (deleteOldMessages s) 0) none = gpMsgs s none := by
  rw [gpMsgs_eq, gpMsgs_eq]
  have hacc : (setPendingOffset (deleteOldMessages s) 0).accepted_types =
      s.accepted_types := rfl
  have hwp : walkPending (setPendingOffset (deleteOldMessages s) 0) =
      walkPending s := by
    simp only [walkPending, setPendingOffset]
    have : walkHB { deleteOldMessages s with pending_offset := 0 } =
        walkHB (deleteOldMessages s) := rfl
    rw [this, deleteOld_walkHB]
    rfl
  rw [hacc, hwp]

theorem delShardFiles_zero (fs : List MFile) :
    delShardFiles 0 fs = (fs, 0) := by
  induction fs with
  | nil => rfl
  | cons f fs ih => simp [delShardFiles, ih]

theorem delShards_zero (shards : List Shard) :
    delShards 0 shards = shards := by
  induction shards with
  | nil => rfl
  | cons sh rest ih =>
    simp [delShards, delShardFiles_zero, ih]

/-- At `pending_offset = 0`, `delete_old_messages` is a no-op. -/
theorem deleteOld_at_zero (s : Store) (h : s.pending_offset = 0) :
    deleteOldMessages s = s := by
  cases s with
  | mk sh acc sq ssq p uu tok schs d ni =>
    simp only [deleteOldMessages]
    simp only at h
    subst h
    simp [delShards_zero]

theorem deleteAll_walkFiles (s : Store) (excl : List Char) :
    walkFiles (deleteAllMessages s).shards excl = [] := by
  simp only [deleteAllMessages, walkFiles]
  induction s.shards with
  | nil => rfl
  | cons sh rest ih =>
    simp only [List.map_cons, List.flatMap_cons, ih, List.append_nil]
    rw [List.filter_filter]
    apply List.filter_eq_nil_iff.mpr
    intro f _
    simp [walkKeep]
    exact fun h _ => h

theorem flatten_modifyLast_append (x : MFile) (shards : List Shard)
    (h : shards ≠ []) :
    flattenShards
      (modifyLast (fun sh => ⟨sh.name, sh.files ++ [x]⟩) shards) =
      flattenShards shards ++ [x] := by
  induction shards with
  | nil => exact absurd rfl h
  | cons sh rest ih =>
    cases rest with
    | nil => simp [modifyLast, flattenShards]
    | cons y t =>
      have : modifyLast (fun sh => ⟨sh.name, sh.files ++ [x]⟩)
          (sh :: y :: t) =
          sh :: modifyLast (fun sh => ⟨sh.name, sh.files ++ [x]⟩)
            (y :: t) := rfl
      rw [this]
      have hfl : flattenShards (sh ::
          modifyLast (fun sh => ⟨sh.name, sh.files ++ [x]⟩) (y :: t)) =
          sh.files ++ flattenShards
            (modifyLast (fun sh => ⟨sh.name, sh.files ++ [x]⟩) (y :: t)) := by
        simp [flattenShards]
      rw [hfl, ih (by simp)]
      simp [flattenShards]

/-- Inserting at the position `_get_next_message_filename` computes
appends exactly one file at the end of the raw listing. -/
theorem flatten_insertNew (shards : List Shard) (d : Nat)
    (mk : Nat → MFile) :
    flattenShards (insertNew shards (nextTarget shards d) mk) =
      flattenShards shards ++ [mk (nextTarget shards d).seq] := by
  cases hsh : shards with
  | nil => simp [nextTarget, insertNew, flattenShards]
  | cons sh rest =>
    by_cases hnd : (nextTarget (sh :: rest) d).newDir
    · simp only [insertNew, hnd, if_true]
      rw [flattenShards_append]
      simp [flattenShards]
    · simp only [insertNew, hnd, Bool.false_eq_true, if_false]
      exact flatten_modifyLast_append _ _ (by simp)

/-- A successful `add` appends exactly one visible record (its flags
decided by the acceptance check) and bumps the inode supply; nothing
else changes. -/
theorem addMessage_success (s : Store) (m : Msg) (sch : Msg → Option Msg)
    (m1 : Msg) (hls : lookupSchema s m.type = some sch)
    (hsch : sch m = some m1) :
    addMessage s m =
      (some s.nextIno,
        { s with
          shards := insertNew s.shards (nextTarget s.shards s.dirSize)
            fun sq => ⟨sq,
              (if s.accepted_types.contains
                  (if m1.api.isNone then
                    (⟨m1.type, some SERVER_API, m1.body⟩ : Msg)
                  else m1).type then [] else ['h']),
              false,
              Content.good (if m1.api.isNone then
                ⟨m1.type, some SERVER_API, m1.body⟩ else m1),
              s.nextIno⟩,
          nextIno := s.nextIno + 1 }) := by
  simp [addMessage, hls, hsch]

/-- A rejected `add` (unknown type or failing coercion) returns the
store untouched. -/
theorem addMessage_failure (s : Store) (m : Msg)
    (h : lookupSchema s m.type = none ∨
      ∃ sch, lookupSchema s m.type = some sch ∧ sch m = none) :
    addMessage s m = (none, s) := by
  rcases h with h | ⟨sch, hls, hsch⟩
  · simp [addMessage, h]
  · simp [addMessage, hls, hsch]

theorem addMessage_isSome_iff (s : Store) (m : Msg) :
    (addMessage s m).fst.isSome ↔
      ∃ sch m1, lookupSchema s m.type = some sch ∧ sch m = some m1 := by
  cases hls : lookupSchema s m.type with
  | none => simp [addMessage, hls]
  | some sch =>
    cases hsch : sch m with
    | none => simp [addMessage, hls, hsch]
    | some m1 =>
      simp [addMessage, hls, hsch]

theorem walkFiles_insertNew (shards : List Shard) (d : Nat)
    (excl : List Char) (mk : Nat → MFile) :
    walkFiles (insertNew shards (nextTarget shards d) mk) excl =
      walkFiles shards excl ++
        (if walkKeep excl (mk (nextTarget shards d).seq) then
          [mk (nextTarget shards d).seq] else []) := by
  rw [walkFiles_eq_filter_flatten, walkFiles_eq_filter_flatten,
    flatten_insertNew, List.filter_append]
  congr 1
  by_cases h : walkKeep excl (mk (nextTarget shards d).seq) <;> simp [h]

/-- `add` never changes the metadata: offsets, sequences, accepted
types, schemas, capacity. -/
theorem addStore_fields (s : Store) (m : Msg) :
    (addStore s m).pending_offset = s.pending_offset ∧
      (addStore s m).sequence = s.sequence ∧
      (addStore s m).accepted_types = s.accepted_types ∧
      (addStore s m).dirSize = s.dirSize ∧
      (addStore s m).schemas = s.schemas := by
  cases hls : lookupSchema s m.type with
  | none => simp [addStore, addMessage, hls]
  | some sch =>
    cases hsch : sch m with
    | none => simp [addStore, addMessage, hls, hsch]
    | some m1 => simp [addStore, addMessage, hls, hsch]

/-- A successful `add` makes exactly one new record visible, at the
end of the walk, carrying the freshly allocated inode; every other
walk entry is untouched. -/
theorem addStore_walkAll (s : Store) (m : Msg)
    (h : (addMessage s m).fst.isSome) :
    ∃ f : MFile, f.ino = s.nextIno ∧ f.tmp = false ∧
      walkAll (addStore s m) = walkAll s ++ [f] ∧
      (addStore s m).nextIno = s.nextIno + 1 := by
  rw [addMessage_isSome_iff] at h
  obtain ⟨sch, m1, hls, hsch⟩ := h
  have hadd := addMessage_success s m sch m1 hls hsch
  refine ⟨⟨(nextTarget s.shards s.dirSize).seq,
    (if s.accepted_types.contains
        (if m1.api.isNone then (⟨m1.type, some SERVER_API, m1.body⟩ : Msg)
         else m1).type then [] else ['h']),
    false,
    Content.good (if m1.api.isNone then ⟨m1.type, some SERVER_API, m1.body⟩
      else m1), s.nextIno⟩, rfl, rfl, ?_, ?_⟩
  · show walkFiles (addStore s m).shards [] = _
    rw [addStore, hadd]
    simp only
    rw [walkFiles_insertNew]
    rw [if_pos (by simp [walkKeep, excludeOk])]
    rfl
  · rw [addStore, hadd]

/-- `add` never shrinks the unflagged walk. -/
theorem addStore_walkHB_length (s : Store) (m : Msg) :
    (walkHB s).length ≤ (walkHB (addStore s m)).length := by
  cases hls : lookupSchema s m.type with
  | none => simp [addStore, addMessage, hls]
  | some sch =>
    cases hsch : sch m with
    | none => simp [addStore, addMessage, hls, hsch]
    | some m1 =>
      have hadd := addMessage_success s m sch m1 hls hsch
      rw [walkHB, walkHB, addStore, hadd]
      simp only
      rw [walkFiles_insertNew]
      simp

/-- `AddReachable` stores carry strictly increasing inodes along the
walk (insertion order is walk order), all below the fresh supply. -/
theorem addReachable_inos (s : Store) (h : AddReachable s) :
    ((walkAll s).map MFile.ino).Pairwise (· < ·) ∧
      ∀ f ∈ walkAll s, f.ino < s.nextIno := by
  induction h with
  | base s hsh =>
    constructor
    · rw [walkAll, hsh]
      simp [walkFiles]
    · intro f hf
      rw [walkAll, hsh] at hf
      simp [walkFiles] at hf
  | step s m _ ih =>
    by_cases hs : (addMessage s m).fst.isSome
    · obtain ⟨f, hino, _, hwalk, hni⟩ := addStore_walkAll s m hs
      constructor
      · rw [hwalk, List.map_append, List.pairwise_append]
        refine ⟨ih.1, by simp, ?_⟩
        intro a ha b hb
        simp at ha hb
        obtain ⟨g, hg, hga⟩ := ha
        have hlt := ih.2 g hg
        omega
      · intro g hg
        rw [hwalk] at hg
        rw [hni]
        rcases List.mem_append.mp hg with hg | hg
        · have := ih.2 g hg
          omega
        · simp at hg
          subst hg
          omega
    · have : addMessage s m = (none, s) := by
        apply addMessage_failure
        cases hls : lookupSchema s m.type with
        | none => exact Or.inl rfl
        | some sch =>
          cases hsch : sch m with
          | none => exact Or.inr ⟨sch, rfl, hsch⟩
          | some m1 => exact absurd (by simp [addMessage, hls, hsch]) hs
      rw [addStore, this]
      exact ih

theorem gpProcess_tmp (acc : List String) (f : MFile) :
    (gpProcess acc f).snd.tmp = f.tmp := by
  cases h : f.content <;> simp [gpProcess, h]
  split <;> simp

theorem gpFiles_snd_none (acc : List String) :
    ∀ (fs : List MFile) (st : GpSt),
    (gpFiles acc none st fs).snd = gpMark acc st.skip fs := by
  intro fs
  induction fs with
  | nil => intro st; rfl
  | cons f fs ih =>
    intro st
    by_cases hp : pendKeep f
    · by_cases hs : st.skip = 0
      · have hl : limReached none st.got = false := rfl
        simp only [gpFiles, gpMark, hp, hs, Bool.not_true,
          Bool.false_eq_true, if_false, ne_eq, not_true_eq_false, hl]
        cases hsel : (gpProcess acc f).fst with
        | some m => simp [ih]
        | none => simp [ih, hs]
      · simp only [gpFiles, gpMark, hp, hs, Bool.not_true,
          Bool.false_eq_true, if_false, ne_eq, not_false_eq_true, if_true]
        simp [ih]
    · have hp' : pendKeep f = false := by simpa using hp
      simp only [gpFiles, gpMark, hp', Bool.not_false, if_true]
      simp [ih]

theorem gpMark_append (acc : List String) (skip : Nat)
    (xs ys : List MFile) :
    gpMark acc skip (xs ++ ys) =
      gpMark acc skip xs ++
        gpMark acc (skip - (pendFilter xs).length) ys := by
  induction xs generalizing skip with
  | nil => simp [gpMark, pendFilter]
  | cons f fs ih =>
    by_cases hp : pendKeep f
    · by_cases hs : skip = 0
      · simp only [List.cons_append, gpMark, hp, hs, Bool.not_true,
          Bool.false_eq_true, if_false, ne_eq, not_true_eq_false]
        have hih := ih 0
        simp only [List.append_eq] at hih ⊢
        rw [hih, pendFilter_cons_pos f fs hp]
        simp
      · simp only [List.cons_append, gpMark, hp, hs, Bool.not_true,
          Bool.false_eq_true, if_false, ne_eq, not_false_eq_true, if_true]
        have hih := ih (skip - 1)
        simp only [List.append_eq] at hih ⊢
        rw [hih, pendFilter_cons_pos f fs hp]
        simp only [List.length_cons, List.cons_append]
        have : skip - 1 - (pendFilter fs).length =
            skip - ((pendFilter fs).length + 1) := by omega
        rw [this]
    · have hp' : pendKeep f = false := by simpa using hp
      simp only [List.cons_append, gpMark, hp', Bool.not_false, if_true]
      have hih := ih skip
      simp only [List.append_eq] at hih ⊢
      rw [hih, pendFilter_cons_neg f fs hp']

theorem gpShards_flatten_none (acc : List String) :
    ∀ (shards : List Shard) (st : GpSt),
    flattenShards (gpShards acc none st shards).snd =
      gpMark acc st.skip (flattenShards shards) := by
  intro shards
  induction shards with
  | nil => intro st; rfl
  | cons sh rest ih =>
    intro st
    have hfl : flattenShards (sh :: rest) = sh.files ++ flattenShards rest := by
      simp [flattenShards]
    simp only [gpShards, hfl, gpMark_append]
    have hout : flattenShards
        (⟨sh.name, (gpFiles acc none st sh.files).snd⟩ ::
          (gpShards acc none (gpFiles acc none st sh.files).fst rest).snd) =
        (gpFiles acc none st sh.files).snd ++
          flattenShards
            (gpShards acc none (gpFiles acc none st sh.files).fst rest).snd := by
      simp [flattenShards]
    rw [hout, ih, gpFiles_snd_none, gpFiles_fst]

theorem gpMark_mem (acc : List String) :
    ∀ (fs : List MFile) (skip : Nat) (f : MFile),
    f ∈ (pendFilter fs).drop skip →
    (gpProcess acc f).snd ∈ gpMark acc skip fs := by
  intro fs
  induction fs with
  | nil => intro skip f hf; simp [pendFilter] at hf
  | cons g fs ih =>
    intro skip f hf
    by_cases hp : pendKeep g
    · rw [pendFilter_cons_pos g fs hp] at hf
      by_cases hs : skip = 0
      · subst hs
        simp only [List.drop_zero] at hf
        rcases List.mem_cons.mp hf with hf | hf
        · subst hf
          simp [gpMark, hp]
        · have := ih 0 f (by simpa using hf)
          simp only [gpMark, hp, Bool.not_true, Bool.false_eq_true,
            if_false, ne_eq, not_true_eq_false]
          exact List.mem_cons_of_mem _ this
      · obtain ⟨k, hk⟩ := Nat.exists_eq_succ_of_ne_zero hs
        subst hk
        simp only [List.drop_succ_cons] at hf
        have := ih k f hf
        simp only [gpMark, hp, Bool.not_true, Bool.false_eq_true, if_false,
          ne_eq, Nat.succ_ne_zero, not_false_eq_true, if_true,
          Nat.succ_sub_one]
        exact List.mem_cons_of_mem _ this
    · have hp' : pendKeep g = false := by simpa using hp
      rw [pendFilter_cons_neg g fs hp'] at hf
      have := ih skip f hf
      simp only [gpMark, hp', Bool.not_false, if_true]
      exact List.mem_cons_of_mem _ this

theorem gpMark_resident_length (acc : List String) :
    ∀ (fs : List MFile) (skip : Nat),
    ((gpMark acc skip fs).filter (fun f => !f.tmp)).length =
      (fs.filter (fun f => !f.tmp)).length := by
  intro fs
  induction fs with
  | nil => intro skip; rfl
  | cons f fs ih =>
    intro skip
    by_cases hp : pendKeep f
    · by_cases hs : skip = 0
      · simp only [gpMark, hp, hs, Bool.not_true, Bool.false_eq_true,
          if_false, ne_eq, not_true_eq_false]
        rw [List.filter_cons, List.filter_cons, gpProcess_tmp]
        cases h : f.tmp <;> simp [ih, h]
      · simp only [gpMark, hp, hs, Bool.not_true, Bool.false_eq_true,
          if_false, ne_eq, not_false_eq_true, if_true]
        rw [List.filter_cons, List.filter_cons]
        cases h : f.tmp <;> simp [ih, h]
    · have hp' : pendKeep f = false := by simpa using hp
      simp only [gpMark, hp', Bool.not_false, if_true]
      rw [List.filter_cons, List.filter_cons]
      cases h : f.tmp <;> simp [ih, h]

/-- `get_pending_messages` leaves the first `skip` unflagged records
of a listing untouched: they reappear verbatim as a prefix. -/
theorem gpFiles_pend_take (acc : List String) (lim : Option Nat) :
    ∀ (fs : List MFile) (st : GpSt),
    ∃ rest, pendFilter (gpFiles acc lim st fs).snd =
      (pendFilter fs).take st.skip ++ rest ∧
      ((pendFilter fs).length ≤ st.skip → rest = []) := by
  intro fs
  induction fs with
  | nil =>
    intro st
    exact ⟨[], by simp [gpFiles, pendFilter], fun _ => rfl⟩
  | cons f fs ih =>
    intro st
    by_cases hp : pendKeep f
    · rw [pendFilter_cons_pos f fs hp]
      by_cases hs : st.skip = 0
      · refine ⟨pendFilter (gpFiles acc lim st (f :: fs)).snd, ?_, ?_⟩
        · rw [hs, List.take_zero, List.nil_append]
        · intro h
          simp only [List.length_cons, hs] at h
          omega
      · obtain ⟨k, hk⟩ := Nat.exists_eq_succ_of_ne_zero hs
        simp only [gpFiles, hp, hs, Bool.not_true, Bool.false_eq_true,
          if_false, ne_eq, not_false_eq_true, if_true]
        obtain ⟨rest, h1, h2⟩ := ih ⟨st.skip - 1, st.got, st.msgs⟩
        refine ⟨rest, ?_, ?_⟩
        · rw [pendFilter_cons_pos f _ hp, h1]
          simp only [hk, List.take_succ_cons, List.cons_append,
            Nat.succ_sub_one]
        · intro h
          simp only [List.length_cons] at h
          exact h2 (by simp; omega)
    · have hp' : pendKeep f = false := by simpa using hp
      rw [pendFilter_cons_neg f fs hp']
      simp only [gpFiles, hp', Bool.not_false, if_true]
      obtain ⟨rest, h1, h2⟩ := ih st
      exact ⟨rest, by rw [pendFilter_cons_neg _ _ hp', h1], h2⟩

/-- The shard-level version of `gpFiles_pend_take`. -/
theorem gpShards_pend_take (acc : List String) (lim : Option Nat) :
    ∀ (shards : List Shard) (st : GpSt),
    ∃ rest, pendFilter (flattenShards (gpShards acc lim st shards).snd) =
      (pendFilter (flattenShards shards)).take st.skip ++ rest ∧
      ((pendFilter (flattenShards shards)).length ≤ st.skip → rest = []) := by
  intro shards
  induction shards with
  | nil =>
    intro st
    exact ⟨[], by simp [gpShards, flattenShards, pendFilter], fun _ => rfl⟩
  | cons sh rest ih =>
    intro st
    have hfl : flattenShards (sh :: rest) = sh.files ++ flattenShards rest := by
      simp [flattenShards]
    have hout : flattenShards (gpShards acc lim st (sh :: rest)).snd =
        (gpFiles acc lim st sh.files).snd ++
          flattenShards
            (gpShards acc lim (gpFiles acc lim st sh.files).fst rest).snd := by
      simp [gpShards, flattenShards]
    obtain ⟨ra, ha1, ha2⟩ := gpFiles_pend_take acc lim sh.files st
    obtain ⟨rb, hb1, hb2⟩ := ih (gpFiles acc lim st sh.files).fst
    have hskip : (gpFiles acc lim st sh.files).fst.skip =
        st.skip - (pendFilter sh.files).length := by
      rw [gpFiles_fst]
    rw [hskip] at hb1 hb2
    rw [hfl, pendFilter_append, List.take_append_eq_append_take]
    by_cases hcase : st.skip ≤ (pendFilter sh.files).length
    · refine ⟨ra ++ rb, ?_, ?_⟩
      · rw [hout, pendFilter_append, ha1, hb1]
        have h0 : st.skip - (pendFilter sh.files).length = 0 := by omega
        rw [h0]
        simp
      · intro h
        simp only [List.length_append] at h
        have hra : ra = [] := ha2 (by omega)
        have h0 : (pendFilter (flattenShards rest)).length = 0 := by omega
        have hrb : rb = [] := hb2 (by omega)
        simp [hra, hrb]
    · have hX : (pendFilter sh.files).length ≤ st.skip := by omega
      have hra : ra = [] := ha2 hX
      refine ⟨rb, ?_, ?_⟩
      · rw [hout, pendFilter_append, ha1, hb1, hra]
        rw [List.take_of_length_le hX]
        simp
      · intro h
        simp only [List.length_append] at h
        exact hb2 (by omega)

/-- `get_pending_messages` preserves the invariant bound: the first
`pending_offset` unflagged records stay unflagged and resident. -/
theorem gpStore_inv (s : Store) (lim : Option Nat) (h : storeInv s) :
    storeInv (gpStore s lim) := by
  obtain ⟨rest, h1, _⟩ := gpShards_pend_take s.accepted_types lim s.shards
    ⟨s.pending_offset, 0, []⟩
  have hP : (gpStore s lim).pending_offset = s.pending_offset := rfl
  have hw : walkHB (gpStore s lim) =
      pendFilter (flattenShards (gpShards s.accepted_types lim
        ⟨s.pending_offset, 0, []⟩ s.shards).snd) := by
    rw [walkHB_eq_pendFilter]
    rfl
  rw [storeInv, hP, hw, h1]
  rw [storeInv, walkHB_eq_pendFilter] at h
  simp only [List.length_append, List.length_take]
  omega

theorem rpGo_offset (acc : List String) (P d : Nat) :
    ∀ (es : List Entry) (sh : List Shard) (off : Nat),
    (rpGo acc P d es sh off).snd =
      off + es.countP (fun e => !(hasFlag e.file 'h')) := by
  intro es
  induction es with
  | nil => intro sh off; simp [rpGo]
  | cons e rest ih =>
    intro sh off
    cases hc : e.file.content with
    | corrupt =>
      by_cases hh : hasFlag e.file 'h'
      · simp only [rpGo, hc, hh, if_true]
        rw [ih]
        rw [List.countP_cons]
        simp [hh]
      · have hh' : hasFlag e.file 'h' = false := by simpa using hh
        simp only [rpGo, hc, hh', Bool.false_eq_true, if_false]
        rw [ih, List.countP_cons]
        simp [hh']
        omega
    | good m =>
      by_cases hh : hasFlag e.file 'h'
      · by_cases hacc : acc.contains m.type
        · simp only [rpGo, hc, hh, hacc, if_true]
          rw [ih, List.countP_cons]
          simp [hh]
        · have hacc' : acc.contains m.type = false := by simpa using hacc
          simp only [rpGo, hc, hh, hacc', if_true, Bool.false_eq_true,
            if_false]
          rw [ih, List.countP_cons]
          simp [hh]
      · have hh' : hasFlag e.file 'h' = false := by simpa using hh
        by_cases hmark : (!acc.contains m.type && P ≤ off)
        · simp only [rpGo, hc, hh', Bool.false_eq_true, if_false, hmark,
            if_true]
          rw [ih, List.countP_cons]
          simp [hh']
          omega
        · have hmark' : (!acc.contains m.type && decide (P ≤ off)) = false := by
            simpa using hmark
          simp only [rpGo, hc, hh', Bool.false_eq_true, if_false, hmark']
          rw [ih, List.countP_cons]
          simp [hh']
          omega

/-- On a decode failure, `_reprocess_holding` performs no file
operation at all: the shards are passed on unchanged, and only the
running offset moves (when the record is not HELD). -/
theorem rpGo_corrupt_step (acc : List String) (P d dir : Nat) (f : MFile)
    (rest : List Entry) (sh : List Shard) (off : Nat)
    (h : f.content = Content.corrupt) :
    rpGo acc P d (⟨dir, f⟩ :: rest) sh off =
      rpGo acc P d rest sh (if hasFlag f 'h' then off else off + 1) := by
  simp [rpGo, h]

theorem walkFiles_mapContent (g : Content → Content) (s : Store)
    (excl : List Char) :
    walkFiles (mapContentStore g s).shards excl =
      (walkFiles s.shards excl).map
        fun f => { f with content := g f.content } := by
  simp only [mapContentStore, walkFiles]
  induction s.shards with
  | nil => rfl
  | cons sh rest ih =>
    simp only [List.map_cons, List.flatMap_cons, ih, List.map_append]
    congr 1
    rw [List.filter_map]
    congr 1

theorem isPendingGo_map (P mid : Nat) :
    ∀ (l : List MFile) (i : Nat),
    isPendingGo P mid i
        (l.map fun f => { f with content := Content.corrupt }) =
      isPendingGo P mid i l := by
  intro l
  induction l with
  | nil => intro i; rfl
  | cons f fs ih =>
    intro i
    simp only [List.map_cons, isPendingGo, hasFlag]
    exact if_congr Iff.rfl rfl (by rw [ih])

/-- `is_pending` never opens a record file: its result does not depend
on any record's stored bytes. -/
theorem isPending_content_blind (s : Store) (mid : Nat) :
    isPending (mapContentStore (fun _ => Content.corrupt) s) mid =
      isPending s mid := by
  simp only [isPending]
  have hP : (mapContentStore (fun _ => Content.corrupt) s).pending_offset =
      s.pending_offset := rfl
  rw [hP, walkFiles_mapContent]
  exact isPendingGo_map _ _ _ _

/-- An unlimited `get_pending_messages` flags a corrupt pending record
BROKEN in place and keeps it (and every other record) on disk. -/
theorem gp_corrupt_flagged (s : Store) (f : MFile)
    (hf : f ∈ walkPending s) (hc : f.content = Content.corrupt) :
    ({ f with flags := mkFlags (f.flags ++ ['b']) } ∈
        walkAll (gpStore s none)) ∧
      (walkAll (gpStore s none)).length = (walkAll s).length := by
  have hf' : f ∈ (pendFilter (flattenShards s.shards)).drop
      s.pending_offset := by
    rw [walkPending, walkHB_eq_pendFilter] at hf
    exact hf
  have hpend : pendKeep f = true := by
    have := List.mem_of_mem_drop hf'
    exact (List.mem_filter.mp this).2
  have htmp : f.tmp = false := by
    simp only [pendKeep, Bool.and_eq_true] at hpend
    simpa using hpend.1
  have hmem := gpMark_mem s.accepted_types (flattenShards s.shards)
    s.pending_offset f hf'
  have hmarked : (gpProcess s.accepted_types f).snd =
      { f with flags := mkFlags (f.flags ++ ['b']) } := by
    simp [gpProcess, hc]
  have hflat : flattenShards (gpStore s none).shards =
      gpMark s.accepted_types s.pending_offset
        (flattenShards s.shards) := by
    have := gpShards_flatten_none s.accepted_types s.shards
      ⟨s.pending_offset, 0, []⟩
    exact this
  constructor
  · rw [walkAll_eq_filter, hflat]
    apply List.mem_filter.mpr
    refine ⟨by rw [← hmarked]; exact hmem, by simp [htmp]⟩
  · rw [walkAll_eq_filter, walkAll_eq_filter, hflat]
    exact gpMark_resident_length _ _ _

/-- `add` preserves the pending-offset invariant. -/
theorem addStore_inv (s : Store) (m : Msg) (h : storeInv s) :
    storeInv (addStore s m) := by
  rw [storeInv, (addStore_fields s m).1]
  exact le_trans h (addStore_walkHB_length s m)

/-- `delete_all_messages` re-establishes the invariant outright. -/
theorem deleteAll_inv (s : Store) : storeInv (deleteAllMessages s) := by
  rw [storeInv]
  exact Nat.zero_le _

theorem getLast_cons_ne_nil (a : Shard) (l : List Shard) (h : l ≠ []) :
    (a :: l).getLast? = l.getLast? := by
  cases l with
  | nil => exact absurd rfl h
  | cons b t => exact List.getLast?_cons_cons

theorem getLast_modifyLast (g : Shard → Shard) :
    ∀ (shards : List Shard), shards ≠ [] →
    (modifyLast g shards).getLast? = shards.getLast?.map g := by
  intro shards
  induction shards with
  | nil => intro h; exact absurd rfl h
  | cons sh rest ih =>
    intro _
    cases rest with
    | nil => simp [modifyLast]
    | cons y t =>
      have h1 : modifyLast g (sh :: y :: t) = sh :: modifyLast g (y :: t) :=
        rfl
      have h2 : modifyLast g (y :: t) ≠ [] := by
        cases t <;> simp [modifyLast]
      rw [h1, getLast_cons_ne_nil _ _ h2, ih (by simp),
        List.getLast?_cons_cons]

/-- The crashed `add` (stray `.tmp` file, possibly in a freshly made
shard directory) does not change where the next record will be
written: `_get_next_message_filename` picks the same directory and the
same numeric filename. -/
theorem nextTarget_addCrash (s : Store) (c : Content) :
    (nextTarget (addCrash s c).shards s.dirSize).dir =
        (nextTarget s.shards s.dirSize).dir ∧
      (nextTarget (addCrash s c).shards s.dirSize).seq =
        (nextTarget s.shards s.dirSize).seq := by
  cases hsh : s.shards.getLast? with
  | none =>
    have h0 : s.shards = [] := List.getLast?_eq_none_iff.mp hsh
    constructor <;>
      simp [addCrash, insertNew, nextTarget, h0]
  | some last =>
    have hne : s.shards ≠ [] := by
      intro h
      rw [h] at hsh
      simp at hsh
    cases hfs : (last.files.filter fun f => !f.tmp).getLast? with
    | none =>
      have hempty : last.files.filter (fun f => !f.tmp) = [] :=
        List.getLast?_eq_none_iff.mp hfs
      have htgt : nextTarget s.shards s.dirSize = ⟨last.name, 0, false⟩ := by
        simp [nextTarget, hsh, hfs]
      have hcrash : (addCrash s c).shards =
          modifyLast (fun sh => ⟨sh.name, sh.files ++
            [⟨(nextTarget s.shards s.dirSize).seq, [], true, c,
              s.nextIno⟩]⟩) s.shards := by
        simp [addCrash, insertNew, htgt]
      rw [hcrash, htgt]
      have hlast : (modifyLast (fun sh => ⟨sh.name, sh.files ++
          [⟨(0 : Nat), [], true, c, s.nextIno⟩]⟩) s.shards).getLast? =
          some ⟨last.name, last.files ++
            [⟨(0 : Nat), [], true, c, s.nextIno⟩]⟩ := by
        rw [getLast_modifyLast _ _ hne, hsh]
        rfl
      simp only at hlast
      constructor <;>
        simp [nextTarget, hlast, List.filter_append, hempty]
    | some lf =>
      by_cases hlen : (last.files.filter fun f => !f.tmp).length < s.dirSize
      · have htgt : nextTarget s.shards s.dirSize =
            ⟨last.name, lf.seq + 1, false⟩ := by
          simp [nextTarget, hsh, hfs, hlen]
        have hcrash : (addCrash s c).shards =
            modifyLast (fun sh => ⟨sh.name, sh.files ++
              [⟨lf.seq + 1, [], true, c, s.nextIno⟩]⟩) s.shards := by
          simp [addCrash, insertNew, htgt]
        rw [hcrash, htgt]
        have hlast : (modifyLast (fun sh => ⟨sh.name, sh.files ++
            [⟨lf.seq + 1, [], true, c, s.nextIno⟩]⟩) s.shards).getLast? =
            some ⟨last.name, last.files ++
              [⟨lf.seq + 1, [], true, c, s.nextIno⟩]⟩ := by
          rw [getLast_modifyLast _ _ hne, hsh]
          rfl
        constructor <;>
          simp [nextTarget, hlast, List.filter_append, hfs, hlen]
      · have htgt : nextTarget s.shards s.dirSize =
            ⟨last.name + 1, 0, true⟩ := by
          simp [nextTarget, hsh, hfs, hlen]
        have hcrash : (addCrash s c).shards =
            s.shards ++ [⟨last.name + 1,
              [⟨(0 : Nat), [], true, c, s.nextIno⟩]⟩] := by
          simp [addCrash, insertNew, htgt]
        rw [hcrash, htgt]
        constructor <;>
          simp [nextTarget, List.getLast?_concat]

/-- The `.tmp` entry a crashed `add` leaves behind is invisible to
every walk. -/
theorem addCrash_walkFiles (s : Store) (c : Content) (excl : List Char) :
    walkFiles (addCrash s c).shards excl = walkFiles s.shards excl := by
  have h : (addCrash s c).shards =
      insertNew s.shards (nextTarget s.shards s.dirSize)
        fun sq => ⟨sq, [], true, c, s.nextIno⟩ := rfl
  rw [h, walkFiles_insertNew]
  rw [if_neg (by simp [walkKeep])]
  simp

end LandscapeStore

namespace Reconciler

/-- C1: for every `local_sequence ≥ 0`, `peer_next_expected ≥ 0` and
`0 ≤ local_pending_offset ≤ buffered_count`, `reconcile` returns
`new_sequence = peer_next_expected`, and with
`delta = peer_next_expected - local_sequence` it returns
`new_pending_offset = min(local_pending_offset + delta, buffered_count)`
when `delta ≥ 0` and
`new_pending_offset = max(local_pending_offset + delta, 0)` when
`delta < 0`. -/
theorem claim_C1_reconcile (ls po bc pe : Int) (_h1 : 0 ≤ ls)
    (_h2 : 0 ≤ pe) (_h3 : 0 ≤ po) (_h4 : po ≤ bc) :
    (reconcile ls po bc pe).fst = pe ∧
      (0 ≤ pe - ls → (reconcile ls po bc pe).snd = min (po + (pe - ls)) bc) ∧
      (pe - ls < 0 → (reconcile ls po bc pe).snd = max (po + (pe - ls)) 0) := by
  unfold reconcile
  by_cases h : 0 ≤ pe - ls
  · rw [if_pos h]
    exact ⟨rfl, fun _ => rfl, fun hlt => absurd h (by omega)⟩
  · rw [if_neg h]
    exact ⟨rfl, fun hge => absurd hge h, fun _ => rfl⟩

/-- Witness for C1 at the spec's first worked example. -/
theorem claim_C1_reconcile_witness :
    (reconcile 0 0 10 4).fst = 4 ∧
      ((0 : Int) ≤ 4 - 0 → (reconcile 0 0 10 4).snd = min (0 + (4 - 0)) 10) ∧
      ((4 : Int) - 0 < 0 → (reconcile 0 0 10 4).snd = max (0 + (4 - 0)) 0) :=
  claim_C1_reconcile 0 0 10 4 (by decide) (by decide) (by decide) (by decide)

/-- C6 counterexample: the spec's fourth worked example claims
`reconcile(9, 9, 3, 1) = (1, 0)`, but the spec's own regression
formula gives `max(9 + (1 - 9), 0) = 1`, not `0`. -/
theorem claim_C6_counterexample : reconcile 9 9 3 1 ≠ (1, 0) := by
  decide

/-- C6 (amended): the first three worked examples of section 8 hold as
written; the fourth evaluates to `(1, 1)` (the spec's `(1, 0)` is an
arithmetic slip: `max(9 + (1 - 9), 0) = 1`). -/
theorem claim_C6_examples :
    reconcile 0 0 10 4 = (4, 4) ∧ reconcile 4 4 10 9 = (9, 9) ∧
      reconcile 9 9 7 6 = (6, 6) ∧ reconcile 9 9 3 1 = (1, 1) := by
  refine ⟨by decide, by decide, by decide, by decide⟩

end Reconciler

namespace LandscapeStore

/-- C2 counterexample: `delete_old_messages` on a store with two
unflagged accepted records and `pending_offset = 1` removes record 0,
but the following unbounded `get_pending` does not return record 1
(which was at/after the pending offset at deletion time), because
`delete_old_messages` leaves `pending_offset` untouched and the walk
then skips one more record. -/
theorem claim_C2_counterexample :
    (⟨1, [], false, Content.good msgB, 11⟩ : MFile) ∈ walkPending storeTwo ∧
      msgB ∈ gpMsgs storeTwo none ∧
      msgB ∉ gpMsgs (deleteOldMessages storeTwo) none := by
  refine ⟨by decide, by decide, by decide⟩

/-- C2 (amended): `delete_old_messages` removes exactly the unflagged
records strictly before `pending_offset` (never a HELD or BROKEN
record, never a record at or after the offset, which survive
verbatim); an unbounded `get_pending` run after the deletion returns
every record that was at/after the offset, and none from before it,
once the caller has accounted for the deletion by resetting
`pending_offset` to `0` — with the offset left as is, `get_pending`
skips a further `pending_offset` records. -/
theorem claim_C2_delete_old_frame (s : Store) :
    walkHB (deleteOldMessages s) = (walkHB s).drop s.pending_offset ∧
      (walkAll (deleteOldMessages s)).filter (fun f => !unflagged f) =
        (walkAll s).filter (fun f => !unflagged f) ∧
      gpMsgs (setPendingOffset (deleteOldMessages s) 0) none =
        gpMsgs s none :=
  ⟨deleteOld_walkHB s, deleteOld_flagged_preserved s,
    deleteOld_reset_msgs s⟩

/-- C3: on every store built by `add` calls, `get_pending(limit)`
returns at most `limit` messages, namely the earliest decodable
accepted-type records of the pending walk (HELD/BROKEN records are
skipped and consume no slot: they contribute nothing to the filtered
list), in strictly increasing insertion (inode) order. -/
theorem claim_C3_get_pending (s : Store) (h : AddReachable s)
    (lim : Option Nat) (n : Nat) :
    gpMsgs s lim =
        optTake lim (List.filterMap (gpSelect s.accepted_types)
          (walkPending s)) ∧
      (gpMsgs s (some n)).length ≤ n ∧
      ((selRecs s).map MFile.ino).Pairwise (· < ·) := by
  refine ⟨gpMsgs_eq s lim, ?_, ?_⟩
  · rw [gpMsgs_eq]
    simp [optTake]
  · have hmain := (addReachable_inos s h).1
    have hhb : walkHB s =
        ((flattenShards s.shards).filter (fun f => !f.tmp)).filter
          unflagged := by
      rw [walkHB_eq_pendFilter, pendFilter, List.filter_filter]
      apply List.filter_congr
      intro f _
      simp [pendKeep]
      rw [Bool.and_comm]
    have hsub : List.Sublist (selRecs s) (walkAll s) := by
      apply List.Sublist.trans (List.filter_sublist _)
      apply List.Sublist.trans (List.drop_sublist _ _)
      rw [hhb, walkAll_eq_filter]
      exact List.filter_sublist _
    exact hmain.sublist (hsub.map MFile.ino)

/-- Witness for C3 on the store obtained by adding two messages to an
empty store. -/
theorem claim_C3_get_pending_witness :
    gpMsgs (addStore (addStore baseStore msgA) msgB) (some 1) =
        optTake (some 1) (List.filterMap
          (gpSelect (addStore (addStore baseStore msgA) msgB).accepted_types)
          (walkPending (addStore (addStore baseStore msgA) msgB))) ∧
      (gpMsgs (addStore (addStore baseStore msgA) msgB) (some 1)).length ≤ 1 ∧
      ((selRecs (addStore (addStore baseStore msgA) msgB)).map
        MFile.ino).Pairwise (· < ·) :=
  claim_C3_get_pending _
    (AddReachable.step _ msgB (AddReachable.step _ msgA
      (AddReachable.base baseStore rfl))) (some 1) 1

/-- C4 counterexample: the invariant
`pending_offset ≤ count of unflagged resident records` is preserved
neither by `delete_old_messages` (which removes `pending_offset`
unflagged records while leaving the offset untouched) nor by
`set_accepted_types` (whose reprocession counts a BROKEN-but-not-HELD
record into the running offset and can hold a record that is still
needed to cover the offset). -/
theorem claim_C4_counterexample :
    (storeInv storeOne ∧ ¬ storeInv (deleteOldMessages storeOne)) ∧
      (storeInv storeMixed ∧
        ¬ storeInv (setAcceptedTypes storeMixed [])) := by
  refine ⟨⟨by decide, by decide⟩, ⟨by decide, by decide⟩⟩

/-- C4 (amended): `add`, `get_pending` (any limit) and
`delete_all_messages` preserve the invariant
`0 ≤ pending_offset ≤ (count of resident unflagged records)`;
`count_pending` and `is_pending` are modelled as pure functions and
cannot change the state.  `delete_old_messages` and
`set_accepted_types` do not preserve the invariant (see the
counterexample); their callers re-establish it by adjusting
`pending_offset`. -/
theorem claim_C4_invariant (s : Store) (m : Msg) (lim : Option Nat)
    (h : storeInv s) :
    storeInv (addStore s m) ∧ storeInv (gpStore s lim) ∧
      storeInv (deleteAllMessages s) :=
  ⟨addStore_inv s m h, gpStore_inv s lim h, deleteAll_inv s⟩

/-- Witness for C4 at the empty base store. -/
theorem claim_C4_invariant_witness :
    storeInv (addStore baseStore msgA) ∧
      storeInv (gpStore baseStore none) ∧
      storeInv (deleteAllMessages baseStore) :=
  claim_C4_invariant baseStore msgA none (by decide)

/-- C5 counterexample: on two unflagged records with
`pending_offset = 1`, the first `delete_old_messages` removes record 0
and the second removes record 1 — calling it twice does not leave the
same files as calling it once. -/
theorem claim_C5_counterexample :
    walkAll (deleteOldMessages (deleteOldMessages storeTwo)) ≠
      walkAll (deleteOldMessages storeTwo) := by
  decide

/-- C5 (amended): `delete_old_messages` alone is not idempotent (it
leaves `pending_offset` unchanged, so a second call removes up to
`pending_offset` further unflagged records); the composite the caller
actually performs — `delete_old_messages` followed by resetting
`pending_offset` to 0 — is idempotent, and at `pending_offset = 0` the
operation is a no-op. -/
theorem claim_C5_idempotent (s : Store) :
    setPendingOffset (deleteOldMessages
        (setPendingOffset (deleteOldMessages s) 0)) 0 =
      setPendingOffset (deleteOldMessages s) 0 := by
  rw [deleteOld_at_zero (setPendingOffset (deleteOldMessages s) 0) rfl]
  rfl

/-- C7 counterexample: `_reprocess_holding` encounters the unflagged
corrupt record of `storeCorrupt` but does not flag it BROKEN — the
record survives with its flags unchanged (the code only logs the
decode failure). -/
theorem claim_C7_counterexample :
    (walkAll (reprocessHolding storeCorrupt)).all
        (fun f => !(hasFlag f 'b')) = true ∧
      walkAll (reprocessHolding storeCorrupt) = walkAll storeCorrupt ∧
      walkAll storeCorrupt = [⟨0, [], false, Content.corrupt, 30⟩] := by
  refine ⟨by decide, by decide, by decide⟩

/-- C7 (amended): a record that fails to decode never causes
`get_pending` or `is_pending` to raise: `get_pending` flags it BROKEN
in place, retains it (no record is deleted), and excludes it from the
returned messages; `is_pending` never reads record contents at all.
`_reprocess_holding`, however, performs no file operation on a decode
failure (the record is only logged, not flagged), and it advances its
running offset exactly when the record is not already HELD. -/
theorem claim_C7_decode_errors (s : Store) (f : MFile)
    (hf : f ∈ walkPending s) (hc : f.content = Content.corrupt) :
    gpMsgs s none =
        List.filterMap (gpSelect s.accepted_types) (walkPending s) ∧
      ({ f with flags := mkFlags (f.flags ++ ['b']) } ∈
        walkAll (gpStore s none)) ∧
      (walkAll (gpStore s none)).length = (walkAll s).length ∧
      (∀ (acc : List String) (P d dir : Nat) (g : MFile)
        (rest : List Entry) (sh : List Shard) (off : Nat),
        g.content = Content.corrupt →
        rpGo acc P d (⟨dir, g⟩ :: rest) sh off =
          rpGo acc P d rest sh (if hasFlag g 'h' then off else off + 1)) ∧
      (∀ (acc : List String) (P d : Nat) (es : List Entry)
        (sh : List Shard) (off : Nat),
        (rpGo acc P d es sh off).snd =
          off + es.countP (fun e => !(hasFlag e.file 'h'))) ∧
      (∀ mid, isPending (mapContentStore (fun _ => Content.corrupt) s) mid =
        isPending s mid) := by
  have hgc := gp_corrupt_flagged s f hf hc
  refine ⟨by rw [gpMsgs_eq]; rfl, hgc.1, hgc.2, ?_, ?_, ?_⟩
  · intro acc P d dir g rest sh off hg
    exact rpGo_corrupt_step acc P d dir g rest sh off hg
  · intro acc P d es sh off
    exact rpGo_offset acc P d es sh off
  · intro mid
    exact isPending_content_blind s mid

/-- Witness for C7 at the concrete corrupt-record store. -/
theorem claim_C7_decode_errors_witness :
    ({ (⟨0, [], false, Content.corrupt, 30⟩ : MFile) with
        flags := mkFlags ([] ++ ['b']) } ∈
      walkAll (gpStore storeCorrupt none)) ∧
      (walkAll (gpStore storeCorrupt none)).length =
        (walkAll storeCorrupt).length :=
  ⟨(claim_C7_decode_errors storeCorrupt ⟨0, [], false, Content.corrupt, 30⟩
      (by decide) rfl).2.1,
    (claim_C7_decode_errors storeCorrupt ⟨0, [], false, Content.corrupt, 30⟩
      (by decide) rfl).2.2.1⟩

/-- C8: `add` fails exactly when the message's type has no registered
schema or the schema rejects the fields; on failure nothing is stored
(the store is exactly as before — the failure happens before any
write); on success exactly one new record file appears, and the
sequence, pending offset and accepted types are unchanged in both
cases. -/
theorem claim_C8_add (s : Store) (m : Msg) :
    ((addMessage s m).fst = none ↔
        lookupSchema s m.type = none ∨
          ∃ sch, lookupSchema s m.type = some sch ∧ sch m = none) ∧
      ((addMessage s m).fst = none → (addMessage s m).snd = s) ∧
      ((addMessage s m).fst.isSome →
        ∃ f : MFile, walkAll ((addMessage s m).snd) = walkAll s ++ [f]) ∧
      (addStore s m).sequence = s.sequence ∧
      (addStore s m).pending_offset = s.pending_offset ∧
      (addStore s m).accepted_types = s.accepted_types := by
  have hfields := addStore_fields s m
  refine ⟨?_, ?_, ?_, hfields.2.1, hfields.1, hfields.2.2.1⟩
  · cases hls : lookupSchema s m.type with
    | none => simp [addMessage, hls]
    | some sch =>
      cases hsch : sch m with
      | none => simp [addMessage, hls, hsch]
      | some m1 => simp [addMessage, hls, hsch]
  · intro hnone
    cases hls : lookupSchema s m.type with
    | none => simp [addMessage, hls]
    | some sch =>
      cases hsch : sch m with
      | none => simp [addMessage, hls, hsch]
      | some m1 => simp [addMessage, hls, hsch] at hnone
  · intro hsome
    obtain ⟨f, _, _, hwalk, _⟩ := addStore_walkAll s m hsome
    exact ⟨f, hwalk⟩

/-- Witness for C8: a message of unregistered type is rejected with
the store untouched; a registered one stores exactly one record. -/
theorem claim_C8_add_witness :
    (addMessage baseStore msgU).fst = none ∧
      (addMessage baseStore msgU).snd = baseStore ∧
      ∃ f : MFile,
        walkAll ((addMessage baseStore msgA).snd) =
          walkAll baseStore ++ [f] :=
  ⟨by decide, (claim_C8_add baseStore msgU).2.1 (by decide),
    (claim_C8_add baseStore msgA).2.2.1 (by decide)⟩

/-- C9: every enumeration ignores `.tmp` entries, so the store a
crashed `add` leaves behind (one stray `.tmp` file, possibly in a
freshly created shard directory) is indistinguishable through every
operation: all walks, the next write position used by the capacity
check, `get_pending` (any limit), `count_pending` and `is_pending`
coincide with the pre-crash store. -/
theorem claim_C9_tmp_crash (s : Store) (c : Content) :
    (∀ excl, walkFiles (addCrash s c).shards excl =
        walkFiles s.shards excl) ∧
      ((nextTarget (addCrash s c).shards s.dirSize).dir =
          (nextTarget s.shards s.dirSize).dir ∧
        (nextTarget (addCrash s c).shards s.dirSize).seq =
          (nextTarget s.shards s.dirSize).seq) ∧
      (∀ lim, gpMsgs (addCrash s c) lim = gpMsgs s lim) ∧
      countPendingMessages (addCrash s c) = countPendingMessages s ∧
      (∀ mid, isPending (addCrash s c) mid = isPending s mid) := by
  have hwp : walkPending (addCrash s c) = walkPending s := by
    rw [walkPending, walkPending]
    have h1 : (addCrash s c).pending_offset = s.pending_offset := rfl
    rw [h1, walkHB, walkHB, addCrash_walkFiles]
  refine ⟨addCrash_walkFiles s c, nextTarget_addCrash s c, ?_, ?_, ?_⟩
  · intro lim
    rw [gpMsgs_eq, gpMsgs_eq, hwp]
    rfl
  · rw [countPendingMessages, countPendingMessages, hwp]
  · intro mid
    rw [isPending, isPending, addCrash_walkFiles]
    rfl

/-- C10: `delete_all_messages` unlinks every resident record,
HELD/BROKEN ones included, resets `pending_offset` to 0 and leaves
the sequences, identity values and accepted types alone; afterwards
`get_pending` returns nothing and `count_pending` is 0. -/
theorem claim_C10_delete_all (s : Store) :
    walkAll (deleteAllMessages s) = [] ∧
      (deleteAllMessages s).pending_offset = 0 ∧
      (deleteAllMessages s).sequence = s.sequence ∧
      (deleteAllMessages s).server_sequence = s.server_sequence ∧
      (deleteAllMessages s).server_uuid = s.server_uuid ∧
      (deleteAllMessages s).exchange_token = s.exchange_token ∧
      (deleteAllMessages s).accepted_types = s.accepted_types ∧
      (∀ lim, gpMsgs (deleteAllMessages s) lim = []) ∧
      countPendingMessages (deleteAllMessages s) = 0 := by
  have hhb : walkHB (deleteAllMessages s) = [] := deleteAll_walkFiles s _
  refine ⟨deleteAll_walkFiles s [], rfl, rfl, rfl, rfl, rfl, rfl, ?_, ?_⟩
  · intro lim
    rw [gpMsgs_eq, walkPending, hhb]
    simp [optTake_nil]
  · rw [countPendingMessages, walkPending, hhb]
    simp

end LandscapeStore
